import Mathlib

/-!
Verification development for the palm-line extraction pipeline
(`src/processor.py`, `src/analyzer.py` of the ROIAna repository).

The Python code is shallowly embedded: pure scalar computations become Lean
functions on `ℕ` / `ℤ` / `ℚ`, floating-point arc lengths and the confidence
score are modelled over `ℝ`, binary rasters become `Finset (ℤ × ℤ)`, and the
two `while` loops (`_skeletonize`, `_merge_contours`) become fuel-bounded
recursions whose fuel provably suffices on the inputs the theorems cover.
Where the source compares Euclidean distances (`np.sqrt` of an integer sum of
squares) against each other or against the threshold `0.15 * max(width,
height)`, the embedding compares the exact squared quantities instead: squaring
is strictly monotone on nonnegatives, so `sqrt d < sqrt d'` iff `d < d'` and
`sqrt d < 0.15 * M` iff `400 * d < 9 * M ^ 2` in exact arithmetic.
-/

/-! ## Scalar parameters of `extract_lines` (processor.py) -/

/-- Block size of the adaptive threshold, `extract_lines` lines 46-47:
`block_size = int(width / 30)`, then `if block_size % 2 == 0: block_size += 1`.
There is no minimum clamp in the source. -/
def blockSize (width : ℕ) : ℕ :=
  if width / 30 % 2 = 0 then width / 30 + 1 else width / 30

/-- Closing-kernel size, `extract_lines` lines 65-66:
`close_ksize = int(width / 80)`, `if close_ksize < 3: close_ksize = 3`.
The computation sits inside the per-category loop (the loop variable is
`line_name`), but its value does not depend on the category, which the extra
`lineName` argument makes explicit. -/
def closeKsize (lineName : String) (width : ℕ) : ℕ :=
  if width / 80 < 3 then 3 else width / 80

/-! ## Head-line slope fallback (`_extract_features`, analyzer.py lines 83-89)

The fit itself is `cv2.fitLine`, an external library call; its outcome is
modelled as an `Except` value carrying the unpacked `(vx, vy, x, y)`.  The
source computes `slope = vy / vx if vx != 0 else 100` and the surrounding
`try/except` catches any exception and substitutes `slope = 0`. -/

/-- Slope extraction for the head line, including both fallbacks of the
source: `100` for a vertical fit direction and `0` for a failed fit. -/
def headSlope (fit : Except String (ℚ × ℚ × ℚ × ℚ)) : ℚ :=
  match fit with
  | .error _ => 0
  | .ok (vx, vy, _, _) => if vx ≠ 0 then vy / vx else 100

/-! ## Zone mask builder (`_generate_mask`, processor.py lines 221-295) -/

/-- A raster mask, given by its value at each integer pixel coordinate. -/
def Mask := ℤ × ℤ → ℕ

/-- The freshly allocated `np.zeros` mask. -/
def zeroMask : Mask := fun _ => 0

/-- Python list indexing `landmarks[i]` for a nonnegative literal index:
raises `IndexError` (modelled as `Except.error`) when `i` is out of range. -/
def lmGet (landmarks : List (ℤ × ℤ)) (i : ℕ) : Except Unit (ℤ × ℤ) :=
  match landmarks[i]? with
  | some p => .ok p
  | none => .error ()

/-- Body of the `try:` block of `_generate_mask` (lines 228-290).  `fill`
abstracts the external `cv2.fillPoly` scanline fill; Python floor division
`//` is `Int.fdiv`; the float offsets `int(shape[1]*0.1)`, `int(shape[1]*0.3)`
and `int(palm_width*0.35)` are modelled by their exact integer values (for the
heart line, via the integer square root of the squared landmark span).  When
`points` stays empty the untouched zero mask is returned. -/
def generateMaskBody (fill : List (List (ℤ × ℤ)) → Mask) (lineName : String)
    (landmarks : List (ℤ × ℤ)) (shape : ℕ × ℕ) : Except Unit Mask := do
  let p0 ← lmGet landmarks 0
  let p1 ← lmGet landmarks 1
  let p2 ← lmGet landmarks 2
  let p5 ← lmGet landmarks 5
  let p9 ← lmGet landmarks 9
  let p13 ← lmGet landmarks 13
  let p17 ← lmGet landmarks 17
  let webPoint : ℤ × ℤ := ((p2.1 + p5.1).fdiv 2, (p2.2 + p5.2).fdiv 2)
  let centerPalm : ℤ × ℤ :=
    ((p0.1 + p5.1 + p17.1).fdiv 3, (p0.2 + p5.2 + p17.2).fdiv 3)
  let points : List (List (ℤ × ℤ)) :=
    if lineName = "life_line" then
      let innerPoint : ℤ × ℤ :=
        ((centerPalm.1 + p0.1).fdiv 2, (centerPalm.2 + p0.2).fdiv 2)
      [[p0, p1, p2, webPoint, innerPoint]]
    else if lineName = "head_line" then
      let endRegionTop : ℤ × ℤ := (p17.1, p17.2 + (shape.2 : ℤ) / 10)
      let endRegionBottom : ℤ × ℤ := (p17.1, p17.2 + 3 * (shape.2 : ℤ) / 10)
      [[webPoint, p5, endRegionTop, endRegionBottom, centerPalm]]
    else if lineName = "heart_line" then
      let offset : ℤ :=
        (7 * (Nat.sqrt (((p5.1 - p17.1) ^ 2 + (p5.2 - p17.2) ^ 2).toNat) : ℤ)) / 20
      [[p17, p13, p9, p5, (p5.1, p5.2 + offset), (p17.1, p17.2 + offset)]]
    else []
  if points.isEmpty then pure zeroMask else pure (fill points)

/-- Function `_generate_mask`: run the body and catch `IndexError`
(`except IndexError: pass`), in which case the untouched all-zero mask is
returned. -/
def generateMask (fill : List (List (ℤ × ℤ)) → Mask) (lineName : String)
    (landmarks : List (ℤ × ℤ)) (shape : ℕ × ℕ) : Mask :=
  match generateMaskBody fill lineName landmarks shape with
  | .ok m => m
  | .error _ => zeroMask

/-! ## Confidence scorer (`extract_lines`, processor.py lines 98-101)

The score is `min(1.0, total_len / (roi_diag * 0.4)) if roi_diag > 0 else 0`
with `roi_diag = np.sqrt(width**2 + height**2)` and `total_len` the sum of
`cv2.arcLength(c, False)` over the final contours (0 when there are none). -/

/-- Arc length of an open polyline: the sum of consecutive Euclidean
distances, as computed by `cv2.arcLength(c, False)`. -/
noncomputable def arcLength (pts : List (ℤ × ℤ)) : ℝ :=
  ((pts.zip pts.tail).map fun pq =>
    Real.sqrt (((pq.1.1 - pq.2.1 : ℤ) : ℝ) ^ 2 + ((pq.1.2 - pq.2.2 : ℤ) : ℝ) ^ 2)).sum

/-- Diagonal of the region, `np.sqrt(width**2 + height**2)`. -/
noncomputable def roiDiag (width height : ℕ) : ℝ :=
  Real.sqrt ((width : ℝ) ^ 2 + (height : ℝ) ^ 2)

/-- Confidence score of `extract_lines` line 101. -/
noncomputable def confidence (totalLen : ℝ) (width height : ℕ) : ℝ :=
  if 0 < roiDiag width height then min 1 (totalLen / (roiDiag width height * 0.4))
  else 0

/-! ## Fragment stitcher (`_merge_contours`, processor.py lines 111-201)

The source converts each contour to a point list, sorts the lists by length
descending (Python `sort` is stable), repeatedly pops the longest remaining
list as the seed of a path and greedily splices the nearest fragment (among
four endpoint pairings) onto it while the best distance stays under
`max(width, height) * 0.15`, and finally keeps the merged paths with more than
one point.  Distances are compared in squared form (see the header comment):
the source condition `np.sqrt(dsq) < 0.15 * M` becomes `400 * dsq < 9 * M^2`,
and `np.sqrt(d) < np.sqrt(d')` becomes `d < d'`.  The two `while` loops become
fuel recursions; the fuel (one unit per popped fragment) provably suffices. -/

/-- Squared Euclidean distance; the source's `dist` is its square root. -/
def dist2 (p q : ℤ × ℤ) : ℤ := (p.1 - q.1) ^ 2 + (p.2 - q.2) ^ 2

/-- Exact form of `dist < max(width, height) * 0.15` for `dist = √dsq`:
squaring both nonnegative sides gives `dsq < 0.0225 * M²`, i.e.
`400 * dsq < 9 * M²`. -/
def belowThreshold (dsq : ℤ) (width height : ℕ) : Bool :=
  400 * dsq < 9 * (max width height : ℤ) ^ 2

/-- The four splice actions of `_merge_contours` lines 181-188. -/
inductive SpliceAction where
  | append
  | appendRev
  | prepend
  | prependRev
deriving DecidableEq

/-- Whether a candidate distance beats the current best (`d < best_score`,
with `best_score` starting at infinity). -/
def beatsBest (dsq : ℤ) (best : Option (ℤ × ℕ × SpliceAction)) : Bool :=
  match best with
  | none => true
  | some b => dsq < b.1

/-- One `if d_... < best_score and d_... < threshold` update of lines
160-175: strict comparisons, so the earliest candidate wins ties. -/
def considerCand (width height : ℕ) (i : ℕ) (a : SpliceAction) (dsq : ℤ)
    (best : Option (ℤ × ℕ × SpliceAction)) : Option (ℤ × ℕ × SpliceAction) :=
  if beatsBest dsq best && belowThreshold dsq width height then some (dsq, i, a)
  else best

/-- The per-fragment scan of lines 148-175, in source order:
tail-head (append), tail-tail (append reversed), head-tail (prepend),
head-head (prepend reversed).  `seg[0]` and `seg[-1]` are `headD` and
`getLastD` (fragments are nonempty in the pipeline, so the default is inert). -/
def scanSegment (width height : ℕ) (head tail : ℤ × ℤ) (i : ℕ)
    (seg : List (ℤ × ℤ)) (best : Option (ℤ × ℕ × SpliceAction)) :
    Option (ℤ × ℕ × SpliceAction) :=
  considerCand width height i .prependRev (dist2 head (seg.headD (0, 0)))
    (considerCand width height i .prepend (dist2 head (seg.getLastD (0, 0)))
      (considerCand width height i .appendRev (dist2 tail (seg.getLastD (0, 0)))
        (considerCand width height i .append (dist2 tail (seg.headD (0, 0))) best)))

/-- The `for i, seg in enumerate(segments)` scan of line 147. -/
def findBestAux (width height : ℕ) (head tail : ℤ × ℤ) :
    ℕ → List (List (ℤ × ℤ)) → Option (ℤ × ℕ × SpliceAction) →
      Option (ℤ × ℕ × SpliceAction)
  | _, [], best => best
  | i, seg :: rest, best =>
      findBestAux width height head tail (i + 1) rest
        (scanSegment width height head tail i seg best)

/-- Best splice candidate over all remaining fragments (one full scan of the
inner loop body, lines 138-175). -/
def findBest (width height : ℕ) (head tail : ℤ × ℤ)
    (segments : List (List (ℤ × ℤ))) : Option (ℤ × ℕ × SpliceAction) :=
  findBestAux width height head tail 0 segments none

/-- Application of the selected splice, lines 181-188. -/
def applySplice (path seg : List (ℤ × ℤ)) : SpliceAction → List (ℤ × ℤ)
  | .append => path ++ seg
  | .appendRev => path ++ seg.reverse
  | .prepend => seg ++ path
  | .prependRev => seg.reverse ++ path

/-- The `while changed` loop of lines 136-190: rescan, splice the best
candidate, pop it from the pool (`segments.pop(best_idx)`), repeat.  Each
iteration removes one fragment, so fuel `segments.length` never truncates. -/
def stitchLoop (width height : ℕ) :
    ℕ → List (ℤ × ℤ) → List (List (ℤ × ℤ)) →
      List (ℤ × ℤ) × List (List (ℤ × ℤ))
  | 0, path, segments => (path, segments)
  | fuel + 1, path, segments =>
      match findBest width height (path.headD (0, 0)) (path.getLastD (0, 0))
          segments with
      | none => (path, segments)
      | some (_, i, a) =>
          stitchLoop width height fuel (applySplice path (segments.getD i []) a)
            (segments.eraseIdx i)

/-- The outer `while segments` loop of lines 132-192: pop the longest
remaining fragment as the seed, run the inner loop, collect the finished
path.  One unit of fuel per fragment suffices. -/
def mergeLoop (width height : ℕ) :
    ℕ → List (List (ℤ × ℤ)) → List (List (ℤ × ℤ))
  | 0, _ => []
  | _ + 1, [] => []
  | fuel + 1, first :: rest =>
      (stitchLoop width height rest.length first rest).1 ::
        mergeLoop width height fuel (stitchLoop width height rest.length first rest).2

/-- Function `_merge_contours`: stable sort by point count descending
(line 128), greedy merge, then keep only paths with more than one point
(lines 195-199). -/
def mergeContours (width height : ℕ) (contours : List (List (ℤ × ℤ))) :
    List (List (ℤ × ℤ)) :=
  let segments := contours.mergeSort fun a b => decide (b.length ≤ a.length)
  (mergeLoop width height segments.length segments).filter fun p => 1 < p.length

/-- Minimum of the four endpoint distances (squared) between a path's
endpoints and a fragment's endpoints. -/
def minEndDist2 (head tail : ℤ × ℤ) (seg : List (ℤ × ℤ)) : ℤ :=
  min (min (dist2 tail (seg.headD (0, 0))) (dist2 tail (seg.getLastD (0, 0))))
    (min (dist2 head (seg.getLastD (0, 0))) (dist2 head (seg.headD (0, 0))))

/-- The four endpoint distances (squared) of one fragment, in scan order. -/
def segDists (head tail : ℤ × ℤ) (seg : List (ℤ × ℤ)) : List ℤ :=
  [dist2 tail (seg.headD (0, 0)), dist2 tail (seg.getLastD (0, 0)),
    dist2 head (seg.getLastD (0, 0)), dist2 head (seg.headD (0, 0))]

/-- All candidate distances (squared) over a fragment pool. -/
def allEndDists (head tail : ℤ × ℤ) : List (List (ℤ × ℤ)) → List ℤ
  | [] => []
  | seg :: rest => segDists head tail seg ++ allEndDists head tail rest

/-- Invariant of the best-candidate accumulator of the scan: a selected
candidate is below the threshold, is one of the already-scanned distances and
is minimal among them; while nothing is selected, no scanned distance is
below the threshold. -/
def GoodBest (width height : ℕ) (ds : List ℤ)
    (best : Option (ℤ × ℕ × SpliceAction)) : Prop :=
  (∀ d i a, best = some (d, i, a) →
      belowThreshold d width height ∧ d ∈ ds ∧ ∀ x ∈ ds, d ≤ x) ∧
  (best = none → ∀ x ∈ ds, ¬ belowThreshold x width height)

/-- The accumulator only ever holds indices of already-scanned fragments. -/
def BestIdxLt (n : ℕ) (best : Option (ℤ × ℕ × SpliceAction)) : Prop :=
  ∀ d i a, best = some (d, i, a) → i < n

/-- A path is a splice of a fragment group: the concatenation of the group's
fragments in order, each taken with its points in original or exactly
reversed order. -/
def IsSpliceOf (group : List (List (ℤ × ℤ))) (path : List (ℤ × ℤ)) : Prop :=
  ∃ oriented : List (List (ℤ × ℤ)),
    List.Forall₂ (fun o f => o = f ∨ o = f.reverse) oriented group ∧
    path = oriented.flatten

/-! ## Skeletonizer (`_skeletonize`, processor.py lines 203-219)

A binary raster is modelled as the finite set of its nonzero pixels.  The
structuring element is the 3×3 cross.  OpenCV's `erode` and `dilate` with the
default border value ignore out-of-bounds pixels: erosion keeps a pixel iff
all its in-bounds cross neighbours are set, dilation sets a pixel iff some
cross neighbour is set.  On {0, 255} rasters `cv2.subtract` is set
difference (opening is contained in the image, and subtraction saturates at
0 anyway), `cv2.bitwise_or` is union and `cv2.countNonZero` is the
cardinality.  The `while True: ...; if countNonZero == 0: break` loop becomes
a fuel recursion with `width*height + 1` units of fuel; the stopping
condition stays the exact-emptiness test of the source, and the fuel provably
suffices on every input on which the source loop terminates at all. -/

/-- The grid of pixel coordinates of a width × height raster. -/
def grid (width height : ℕ) : Finset (ℤ × ℤ) :=
  Finset.Ico 0 (width : ℤ) ×ˢ Finset.Ico 0 (height : ℤ)

/-- Offsets of the cross structuring element
`cv2.getStructuringElement(cv2.MORPH_CROSS, (3, 3))`. -/
def crossOffsets : List (ℤ × ℤ) := [(0, 0), (1, 0), (-1, 0), (0, 1), (0, -1)]

/-- Erosion with the cross element; out-of-bounds neighbours are ignored
(OpenCV default border for erosion). -/
def erode (width height : ℕ) (s : Finset (ℤ × ℤ)) : Finset (ℤ × ℤ) :=
  (grid width height).filter fun p =>
    ∀ b ∈ crossOffsets, (p.1 + b.1, p.2 + b.2) ∈ grid width height →
      (p.1 + b.1, p.2 + b.2) ∈ s

/-- Dilation with the cross element (which is symmetric). -/
def dilate (width height : ℕ) (s : Finset (ℤ × ℤ)) : Finset (ℤ × ℤ) :=
  (grid width height).filter fun p =>
    ∃ b ∈ crossOffsets, (p.1 + b.1, p.2 + b.2) ∈ s

/-- Morphological opening, `cv2.morphologyEx(img, cv2.MORPH_OPEN, element)`. -/
def opening (width height : ℕ) (s : Finset (ℤ × ℤ)) : Finset (ℤ × ℤ) :=
  dilate width height (erode width height s)

/-- One iteration of the `while True` body with the accumulated skeleton:
`temp = img − open(img)`, `skel |= temp`, `img = erode(img)`, break when
`cv2.countNonZero(img) == 0`. -/
def skelLoop (width height : ℕ) :
    ℕ → Finset (ℤ × ℤ) → Finset (ℤ × ℤ) → Finset (ℤ × ℤ)
  | 0, _, skel => skel
  | fuel + 1, img, skel =>
      if (erode width height img).card = 0 then
        skel ∪ (img \ opening width height img)
      else
        skelLoop width height fuel (erode width height img)
          (skel ∪ (img \ opening width height img))

/-- Function `_skeletonize`. -/
def skeletonize (width height : ℕ) (img : Finset (ℤ × ℤ)) : Finset (ℤ × ℤ) :=
  skelLoop width height (width * height + 1) img ∅

/-- The union of `Xᵢ \ open(Xᵢ)` over the erosion iterates `Xᵢ` visited by
the loop, in structural form (used to reason about `skelLoop`; once an
iterate is empty all later terms are empty, so the early exit of the loop
does not change the union). -/
def skelSet (width height : ℕ) : ℕ → Finset (ℤ × ℤ) → Finset (ℤ × ℤ)
  | 0, _ => ∅
  | fuel + 1, img =>
      (img \ opening width height img) ∪
        skelSet width height fuel (erode width height img)

/-! ## Fragment-extraction filter (`extract_lines`, processor.py lines 77-85)

`sorted_contours = sorted(contours, key=cv2.arcLength, reverse=True)` is a
stable descending sort by arc length; `min_valid_len = max(width, height) *
0.08`; the loop keeps at most the first three sorted contours, each only if
its arc length strictly exceeds the threshold. -/

/-- The fragment filter of `extract_lines`: stable sort by arc length
descending, truncate to the first three, keep those whose arc length strictly
exceeds 8% of `max(width, height)`. -/
noncomputable def selectFragments (width height : ℕ)
    (contours : List (List (ℤ × ℤ))) : List (List (ℤ × ℤ)) :=
  ((contours.mergeSort fun a b => decide (arcLength b ≤ arcLength a)).take 3).filter
    fun c => decide ((max width height : ℝ) * 0.08 < arcLength c)

/-! ## Theorems: C5, C6, C9, C7 -/

/-- Claim C5 as stated is false: for the same region width (here 800), a life
zone and the heart zone use exactly the same closing kernel size (10), not a
strictly smaller one for the life zone. -/
theorem closeKsize_life_heart_equal_at_800 :
    closeKsize "life_line" 800 = closeKsize "heart_line" 800 ∧
      ¬ closeKsize "life_line" 800 < closeKsize "heart_line" 800 := by
  constructor <;> decide

/-- Claim C5, amended: the closing-kernel size is category-independent — every
category uses `max 3 (width / 80)`; in particular life/head zones use the same
kernel as the heart zone, it is never below 3, and it equals `width / 80` once
the width reaches 240. -/
theorem closeKsize_zone_independent (lineName : String) (width : ℕ) :
    closeKsize lineName width = closeKsize "heart_line" width ∧
      3 ≤ closeKsize lineName width ∧
      (240 ≤ width → closeKsize lineName width = width / 80) := by
  refine ⟨rfl, ?_, ?_⟩
  · unfold closeKsize
    split <;> omega
  · intro hw
    have h3 : 3 ≤ width / 80 := Nat.le_div_iff_mul_le (by norm_num) |>.mpr (by omega)
    unfold closeKsize
    split <;> omega

/-- Witness for `closeKsize_zone_independent` at width 800. -/
theorem closeKsize_zone_independent_witness :
    closeKsize "head_line" 800 = closeKsize "heart_line" 800 ∧
      3 ≤ closeKsize "head_line" 800 ∧ closeKsize "head_line" 800 = 800 / 80 := by
  obtain ⟨h1, h2, h3⟩ := closeKsize_zone_independent "head_line" 800
  exact ⟨h1, h2, h3 (by decide)⟩

/-- Claim C6 as stated is false: at region width 100 the adaptive-threshold
block size is 3, which is smaller than the claimed minimum 11 (the source has
no minimum clamp). -/
theorem blockSize_below_11_at_100 :
    blockSize 100 = 3 ∧ ¬ 11 ≤ blockSize 100 := by
  constructor <;> decide

/-- Claim C6, amended: the block size is always odd, but it is only guaranteed
to be at least 11 once the region width is at least 330, because the source
applies no minimum-11 clamp. -/
theorem blockSize_odd (width : ℕ) :
    Odd (blockSize width) ∧ (330 ≤ width → 11 ≤ blockSize width) := by
  constructor
  · unfold blockSize
    rcases Nat.even_or_odd (width / 30) with h | h
    · rw [if_pos (Nat.even_iff.mp h)]
      exact Even.add_one h
    · rw [if_neg (by rw [Nat.odd_iff] at h; omega)]
      exact h
  · intro hw
    have h11 : 11 ≤ width / 30 := Nat.le_div_iff_mul_le (by norm_num) |>.mpr (by omega)
    unfold blockSize
    split <;> omega

/-- Witness for `blockSize_odd` at width 330. -/
theorem blockSize_odd_witness : Odd (blockSize 330) ∧ 11 ≤ blockSize 330 :=
  ⟨(blockSize_odd 330).1, (blockSize_odd 330).2 (by decide)⟩

/-- Claim C9: when the fitted direction has `vx = 0` the head-line slope is
the defined fallback 100 (not a division), and a failed fit is caught and
yields slope 0 — in both cases `headSlope` is total, so no exception reaches
the caller. -/
theorem headSlope_degenerate (vy x y : ℚ) (e : String) :
    headSlope (.ok (0, vy, x, y)) = 100 ∧ headSlope (.error e) = 0 := by
  constructor <;> simp [headSlope]

/-- Claim C7: whenever some referenced landmark index is out of range (the
referenced indices are 0, 1, 2, 5, 9, 13, 17, so this happens exactly when
fewer than 18 landmarks are supplied), `_generate_mask` returns the all-zero
mask for every category, every fill behaviour and every canvas size, and (being
a total function here, with the `IndexError` caught internally) raises nothing. -/
theorem generateMask_out_of_range (fill : List (List (ℤ × ℤ)) → Mask)
    (lineName : String) (landmarks : List (ℤ × ℤ)) (shape : ℕ × ℕ)
    (h : landmarks.length < 18) :
    generateMask fill lineName landmarks shape = zeroMask := by
  have h17 : lmGet landmarks 17 = .error () := by
    unfold lmGet
    rw [List.getElem?_eq_none (by omega)]
  unfold generateMask generateMaskBody
  rw [h17]
  cases lmGet landmarks 0 with
  | error e => rfl
  | ok p0 =>
    cases lmGet landmarks 1 with
    | error e => rfl
    | ok p1 =>
      cases lmGet landmarks 2 with
      | error e => rfl
      | ok p2 =>
        cases lmGet landmarks 5 with
        | error e => rfl
        | ok p5 =>
          cases lmGet landmarks 9 with
          | error e => rfl
          | ok p9 =>
            cases lmGet landmarks 13 with
            | error e => rfl
            | ok p13 => rfl

/-- Witness for `generateMask_out_of_range`: an empty landmark list with a
nowhere-zero fill still produces the all-zero mask. -/
theorem generateMask_out_of_range_witness :
    generateMask (fun _ _ => 255) "life_line" [] (400, 600) = zeroMask :=
  generateMask_out_of_range (fun _ _ => 255) "life_line" [] (400, 600) (by decide)

/-- Claim C3: with positive diagonal the confidence equals
`min 1 (len / (diag * 0.4))`; for nonnegative arc length it lies in `[0, 1]`;
an empty path has arc length 0 and confidence exactly 0; and in the 400×600
scenario with stitched arc length 180 the confidence is within `0.001` of
`0.624`. -/
theorem confidence_contract :
    (∀ (len : ℝ) (w h : ℕ), 0 < (w : ℝ) ^ 2 + (h : ℝ) ^ 2 →
        confidence len w h = min 1 (len / (roiDiag w h * 0.4))) ∧
    (∀ (len : ℝ) (w h : ℕ), 0 ≤ len →
        0 ≤ confidence len w h ∧ confidence len w h ≤ 1) ∧
    (arcLength [] = 0 ∧ ∀ w h : ℕ, confidence (arcLength []) w h = 0) ∧
    |confidence 180 400 600 - 0.624| < 1 / 1000 := by
  have hzero : arcLength [] = 0 := by simp [arcLength]
  have hconf0 : ∀ w h : ℕ, confidence 0 w h = 0 := by
    intro w h
    unfold confidence
    split
    · simp
    · rfl
  refine ⟨?_, ?_, ⟨hzero, fun w h => by rw [hzero]; exact hconf0 w h⟩, ?_⟩
  · intro len w h hp
    have hd : 0 < roiDiag w h := by unfold roiDiag; exact Real.sqrt_pos.mpr hp
    unfold confidence
    rw [if_pos hd]
  · intro len w h hlen
    unfold confidence
    split
    · rename_i hd
      refine ⟨le_min (by norm_num) (div_nonneg hlen ?_), min_le_left _ _⟩
      have : (0.4 : ℝ) > 0 := by norm_num
      positivity
    · exact ⟨le_refl 0, by norm_num⟩
  · have h520 : roiDiag 400 600 = Real.sqrt 520000 := by unfold roiDiag; norm_num
    have hlo : (720 : ℝ) < Real.sqrt 520000 := (Real.lt_sqrt (by norm_num)).mpr (by norm_num)
    have hhi : Real.sqrt 520000 < 722 := (Real.sqrt_lt' (by norm_num)).mpr (by norm_num)
    have hpos : (0 : ℝ) < Real.sqrt 520000 := lt_trans (by norm_num) hlo
    unfold confidence
    rw [h520, if_pos hpos]
    have hv : (180 : ℝ) / (Real.sqrt 520000 * 0.4) = 450 / Real.sqrt 520000 := by
      rw [mul_comm, ← div_div]
      norm_num
    have hb1 : (450 : ℝ) / Real.sqrt 520000 < 0.625 := by
      rw [div_lt_iff₀ hpos]; nlinarith [hlo]
    have hb2 : (0.623 : ℝ) < 450 / Real.sqrt 520000 := by
      rw [lt_div_iff₀ hpos]; nlinarith [hhi]
    have hlt1 : (450 : ℝ) / Real.sqrt 520000 < 1 := lt_trans hb1 (by norm_num)
    rw [hv, min_eq_right (le_of_lt hlt1), abs_lt]
    constructor <;> nlinarith [hb1, hb2]

/-- Witness for `confidence_contract`: the 400×600 scenario confidence is in
the unit interval. -/
theorem confidence_contract_witness :
    0 ≤ confidence 180 400 600 ∧ confidence 180 400 600 ≤ 1 :=
  confidence_contract.2.1 180 400 600 (by norm_num)

/-! ### Properties of the greedy scan (toward claims C1 and C10) -/

/-- The threshold test is downward closed. -/
theorem belowThreshold_mono {d e : ℤ} {w h : ℕ} (hd : belowThreshold d w h)
    (he : e ≤ d) : belowThreshold e w h := by
  simp only [belowThreshold, decide_eq_true_eq] at hd ⊢
  nlinarith

/-- A distance below the threshold is strictly smaller than any distance not
below it. -/
theorem belowThreshold_lt {d e : ℤ} {w h : ℕ} (hd : belowThreshold d w h)
    (he : ¬ belowThreshold e w h) : d < e := by
  simp only [belowThreshold, decide_eq_true_eq] at hd he
  nlinarith

/-- One candidate update preserves the scan invariant. -/
theorem goodBest_consider {w h : ℕ} {ds : List ℤ}
    {best : Option (ℤ × ℕ × SpliceAction)} (hg : GoodBest w h ds best)
    (i : ℕ) (a : SpliceAction) (dsq : ℤ) :
    GoodBest w h (dsq :: ds) (considerCand w h i a dsq best) := by
  obtain ⟨hsome, hnone⟩ := hg
  unfold considerCand
  by_cases hcond : (beatsBest dsq best && belowThreshold dsq w h) = true
  · rw [if_pos hcond]
    rw [Bool.and_eq_true] at hcond
    obtain ⟨hbeat, hbelow⟩ := hcond
    constructor
    · intro d' i' a' heq
      simp only [Option.some.injEq, Prod.mk.injEq] at heq
      obtain ⟨rfl, rfl, rfl⟩ := heq
      refine ⟨hbelow, List.mem_cons_self _ _, ?_⟩
      intro x hx
      rcases List.mem_cons.mp hx with rfl | hx
      · exact le_refl _
      · cases hb : best with
        | none =>
            exact le_of_lt (belowThreshold_lt hbelow (hnone hb x hx))
        | some b =>
            obtain ⟨bd, bi, ba⟩ := b
            have hle := (hsome bd bi ba hb).2.2 x hx
            have hlt : dsq < bd := by
              rw [hb] at hbeat
              simpa [beatsBest] using hbeat
            exact le_trans (le_of_lt hlt) hle
    · intro hc
      simp at hc
  · rw [if_neg hcond]
    rw [Bool.and_eq_true] at hcond
    constructor
    · intro d' i' a' heq
      obtain ⟨hb, hm, hmin⟩ := hsome d' i' a' heq
      refine ⟨hb, List.mem_cons_of_mem _ hm, ?_⟩
      intro x hx
      rcases List.mem_cons.mp hx with rfl | hx
      · by_cases hbx : belowThreshold x w h
        · have hbeat : ¬ beatsBest x best = true := fun hbt => hcond ⟨hbt, hbx⟩
          rw [heq] at hbeat
          simp only [beatsBest, decide_eq_true_eq] at hbeat
          omega
        · exact le_of_lt (belowThreshold_lt hb hbx)
      · exact hmin x hx
    · intro hn x hx
      rcases List.mem_cons.mp hx with rfl | hx
      · intro hbx
        exact hcond ⟨by simp [beatsBest, hn], hbx⟩
      · exact hnone hn x hx

/-- Scanning one fragment preserves the invariant, collecting its four
distances. -/
theorem goodBest_scan {w h : ℕ} {ds : List ℤ}
    {best : Option (ℤ × ℕ × SpliceAction)} (hg : GoodBest w h ds best)
    (head tail : ℤ × ℤ) (i : ℕ) (seg : List (ℤ × ℤ)) :
    GoodBest w h
      (dist2 head (seg.headD (0, 0)) :: dist2 head (seg.getLastD (0, 0)) ::
        dist2 tail (seg.getLastD (0, 0)) :: dist2 tail (seg.headD (0, 0)) :: ds)
      (scanSegment w h head tail i seg best) := by
  unfold scanSegment
  exact goodBest_consider
    (goodBest_consider (goodBest_consider (goodBest_consider hg _ _ _) _ _ _) _ _ _) _ _ _

/-- The invariant is stable under reshuffling of the recorded distances. -/
theorem goodBest_congr {w h : ℕ} {ds₁ ds₂ : List ℤ}
    {best : Option (ℤ × ℕ × SpliceAction)}
    (hmem : ∀ x, x ∈ ds₁ ↔ x ∈ ds₂) (hg : GoodBest w h ds₁ best) :
    GoodBest w h ds₂ best := by
  obtain ⟨hsome, hnone⟩ := hg
  constructor
  · intro d i a heq
    obtain ⟨hb, hm, hmin⟩ := hsome d i a heq
    exact ⟨hb, (hmem d).mp hm, fun x hx => hmin x ((hmem x).mpr hx)⟩
  · intro hn x hx
    exact hnone hn x ((hmem x).mpr hx)

/-- Invariant through the indexed scan of all remaining fragments. -/
theorem goodBest_findAux {w h : ℕ} (head tail : ℤ × ℤ) :
    ∀ (segs : List (List (ℤ × ℤ))) (i0 : ℕ) (ds : List ℤ)
      (best : Option (ℤ × ℕ × SpliceAction)), GoodBest w h ds best →
      GoodBest w h (allEndDists head tail segs ++ ds)
        (findBestAux w h head tail i0 segs best)
  | [], i0, ds, best, hg => by simpa [allEndDists] using hg
  | seg :: rest, i0, ds, best, hg => by
      have h1 := goodBest_scan hg head tail i0 seg
      have h2 := goodBest_findAux head tail rest (i0 + 1) _ _ h1
      refine goodBest_congr (fun x => ?_) h2
      simp only [allEndDists, segDists, List.mem_append, List.mem_cons,
        List.not_mem_nil, or_false]
      tauto

/-- The result of a full scan satisfies the invariant over all candidate
distances of the pool. -/
theorem findBest_good {w h : ℕ} (head tail : ℤ × ℤ)
    (segs : List (List (ℤ × ℤ))) :
    GoodBest w h (allEndDists head tail segs) (findBest w h head tail segs) := by
  have h0 : GoodBest w h [] (none : Option (ℤ × ℕ × SpliceAction)) :=
    ⟨fun d i a heq => by simp at heq, fun _ x hx => by simp at hx⟩
  have := goodBest_findAux head tail segs 0 [] none h0
  simpa using this

/-- Membership in the collected distances of a pool. -/
theorem mem_allEndDists {head tail : ℤ × ℤ} {x : ℤ} :
    ∀ {segs : List (List (ℤ × ℤ))},
      x ∈ allEndDists head tail segs ↔ ∃ seg ∈ segs, x ∈ segDists head tail seg
  | [] => by simp [allEndDists]
  | seg :: rest => by
      simp only [allEndDists, List.mem_append, @mem_allEndDists head tail x rest,
        List.mem_cons]
      constructor
      · rintro (hx | ⟨s, hs, hx⟩)
        · exact ⟨seg, Or.inl rfl, hx⟩
        · exact ⟨s, Or.inr hs, hx⟩
      · rintro ⟨s, rfl | hs, hx⟩
        · exact Or.inl hx
        · exact Or.inr ⟨s, hs, hx⟩

/-- The minimal endpoint distance is one of the four endpoint distances. -/
theorem minEndDist2_mem (head tail : ℤ × ℤ) (seg : List (ℤ × ℤ)) :
    minEndDist2 head tail seg ∈ segDists head tail seg := by
  simp only [segDists, minEndDist2, List.mem_cons, List.not_mem_nil, or_false]
  omega

/-- The minimal endpoint distance bounds each of the four endpoint
distances. -/
theorem minEndDist2_le {head tail : ℤ × ℤ} {seg : List (ℤ × ℤ)} {x : ℤ}
    (hx : x ∈ segDists head tail seg) : minEndDist2 head tail seg ≤ x := by
  simp only [segDists, List.mem_cons, List.not_mem_nil, or_false] at hx
  unfold minEndDist2
  rcases hx with rfl | rfl | rfl | rfl <;> omega

/-- Index bounds are preserved by one candidate update. -/
theorem bestIdxLt_mono {m n : ℕ} {best : Option (ℤ × ℕ × SpliceAction)}
    (hg : BestIdxLt m best) (hmn : m ≤ n) : BestIdxLt n best :=
  fun d i a heq => lt_of_lt_of_le (hg d i a heq) hmn

/-- A candidate update records only the index being scanned. -/
theorem bestIdxLt_consider {w h : ℕ} {n i : ℕ}
    {best : Option (ℤ × ℕ × SpliceAction)} (hg : BestIdxLt n best) (hi : i < n)
    (a : SpliceAction) (dsq : ℤ) :
    BestIdxLt n (considerCand w h i a dsq best) := by
  intro d i' a' heq
  unfold considerCand at heq
  split at heq
  · simp only [Option.some.injEq, Prod.mk.injEq] at heq
    obtain ⟨-, rfl, -⟩ := heq
    exact hi
  · exact hg d i' a' heq

/-- Scanning one fragment records only its index. -/
theorem bestIdxLt_scan {w h : ℕ} {n i : ℕ}
    {best : Option (ℤ × ℕ × SpliceAction)} (hg : BestIdxLt n best) (hi : i < n)
    (head tail : ℤ × ℤ) (seg : List (ℤ × ℤ)) :
    BestIdxLt n (scanSegment w h head tail i seg best) := by
  unfold scanSegment
  exact bestIdxLt_consider
    (bestIdxLt_consider (bestIdxLt_consider (bestIdxLt_consider hg hi _ _) hi _ _) hi _ _) hi _ _

/-- The indexed scan only records indices below the final count. -/
theorem bestIdxLt_findAux (w h : ℕ) (head tail : ℤ × ℤ) :
    ∀ (segs : List (List (ℤ × ℤ))) (i0 : ℕ)
      (best : Option (ℤ × ℕ × SpliceAction)), BestIdxLt i0 best →
      BestIdxLt (i0 + segs.length) (findBestAux w h head tail i0 segs best)
  | [], i0, best, hg => by simpa using hg
  | seg :: rest, i0, best, hg => by
      have h1 : BestIdxLt (i0 + 1) (scanSegment w h head tail i0 seg best) :=
        bestIdxLt_scan (bestIdxLt_mono hg (Nat.le_succ i0)) (Nat.lt_succ_self i0)
          head tail seg
      have h2 := bestIdxLt_findAux w h head tail rest (i0 + 1) _ h1
      exact bestIdxLt_mono h2 (by simp [List.length_cons]; omega)

/-- The selected fragment index is valid for the scanned pool. -/
theorem findBest_idx_lt {w h : ℕ} {head tail : ℤ × ℤ}
    {segs : List (List (ℤ × ℤ))} {d : ℤ} {i : ℕ} {a : SpliceAction}
    (heq : findBest w h head tail segs = some (d, i, a)) : i < segs.length := by
  have h0 : BestIdxLt 0 (none : Option (ℤ × ℕ × SpliceAction)) :=
    fun d i a heq => by simp at heq
  have := bestIdxLt_findAux w h head tail segs 0 none h0
  simpa using this d i a heq

/-- Claim C1: each scan of the greedy stitching loop examines the four
endpoint distances of every remaining fragment; a candidate is selected
exactly when some fragment's minimal endpoint distance is below
`0.15 * max(width, height)` (squared form: `400·d² < 9·M²`); the selected
distance is itself below the threshold and globally minimal.  In the
width-400 × height-600 scenario (threshold 90px): two 2-point fragments whose
nearest endpoints are 5px apart are merged into a single path, and two
fragments whose nearest endpoints are 200px apart stay in separate paths. -/
theorem stitch_threshold_spec :
    (∀ (w h : ℕ) (head tail : ℤ × ℤ) (segments : List (List (ℤ × ℤ))),
      (findBest w h head tail segments).isSome ↔
        ∃ seg ∈ segments, belowThreshold (minEndDist2 head tail seg) w h) ∧
    (∀ (w h : ℕ) (head tail : ℤ × ℤ) (segments : List (List (ℤ × ℤ)))
        (d : ℤ) (i : ℕ) (a : SpliceAction),
      findBest w h head tail segments = some (d, i, a) →
        belowThreshold d w h ∧ ∀ seg ∈ segments, d ≤ minEndDist2 head tail seg) ∧
    mergeContours 400 600 [[(0, 0), (10, 0)], [(15, 0), (30, 0)]] =
      [[(0, 0), (10, 0), (15, 0), (30, 0)]] ∧
    mergeContours 400 600 [[(0, 0), (10, 0)], [(210, 0), (230, 0)]] =
      [[(0, 0), (10, 0)], [(210, 0), (230, 0)]] := by
  refine ⟨?_, ?_, ?_, ?_⟩
  · intro w h head tail segments
    obtain ⟨hsome, hnone⟩ := findBest_good (w := w) (h := h) head tail segments
    constructor
    · intro hs
      rcases hfb : findBest w h head tail segments with - | ⟨d, i, a⟩
      · rw [hfb] at hs
        simp at hs
      · obtain ⟨hb, hm, -⟩ := hsome d i a hfb
        obtain ⟨seg, hseg, hx⟩ := mem_allEndDists.mp hm
        exact ⟨seg, hseg, belowThreshold_mono hb (minEndDist2_le hx)⟩
    · rintro ⟨seg, hseg, hb⟩
      rcases hfb : findBest w h head tail segments with - | ⟨d, i, a⟩
      · have := hnone hfb (minEndDist2 head tail seg)
          (mem_allEndDists.mpr ⟨seg, hseg, minEndDist2_mem head tail seg⟩)
        exact absurd hb this
      · rfl
  · intro w h head tail segments d i a heq
    obtain ⟨hsome, -⟩ := findBest_good (w := w) (h := h) head tail segments
    obtain ⟨hb, -, hmin⟩ := hsome d i a heq
    exact ⟨hb, fun seg hseg =>
      hmin _ (mem_allEndDists.mpr ⟨seg, hseg, minEndDist2_mem head tail seg⟩)⟩
  · have hs : [[((0 : ℤ), (0 : ℤ)), (10, 0)], [(15, 0), (30, 0)]].mergeSort
        (fun a b => decide (b.length ≤ a.length)) =
        [[(0, 0), (10, 0)], [(15, 0), (30, 0)]] := by
      simp [List.mergeSort, List.merge]
    simp only [mergeContours, hs]
    decide
  · have hs : [[((0 : ℤ), (0 : ℤ)), (10, 0)], [(210, 0), (230, 0)]].mergeSort
        (fun a b => decide (b.length ≤ a.length)) =
        [[(0, 0), (10, 0)], [(210, 0), (230, 0)]] := by
      simp [List.mergeSort, List.merge]
    simp only [mergeContours, hs]
    decide

/-! ### Conservation of points through stitching (toward claim C10) -/

/-- A single fragment is the splice of the one-fragment group. -/
theorem isSpliceOf_seed (f : List (ℤ × ℤ)) : IsSpliceOf [f] f :=
  ⟨[f], List.Forall₂.cons (Or.inl rfl) List.Forall₂.nil, by simp⟩

/-- Applying any of the four splice actions extends the group by the spliced
fragment (up to the position of the new block). -/
theorem isSpliceOf_apply {group : List (List (ℤ × ℤ))} {path : List (ℤ × ℤ)}
    (hg : IsSpliceOf group path) (seg : List (ℤ × ℤ)) (a : SpliceAction) :
    ∃ group', IsSpliceOf group' (applySplice path seg a) ∧
      group'.Perm (seg :: group) := by
  obtain ⟨oriented, hf, rfl⟩ := hg
  cases a with
  | append =>
      refine ⟨group ++ [seg],
        ⟨oriented ++ [seg],
          List.rel_append hf (List.Forall₂.cons (Or.inl rfl) List.Forall₂.nil),
          by simp [applySplice, List.flatten_append]⟩, ?_⟩
      simpa using List.perm_append_comm
  | appendRev =>
      refine ⟨group ++ [seg],
        ⟨oriented ++ [seg.reverse],
          List.rel_append hf (List.Forall₂.cons (Or.inr rfl) List.Forall₂.nil),
          by simp [applySplice, List.flatten_append]⟩, ?_⟩
      simpa using List.perm_append_comm
  | prepend =>
      exact ⟨seg :: group,
        ⟨seg :: oriented, List.Forall₂.cons (Or.inl rfl) hf,
          by simp [applySplice]⟩, List.Perm.refl _⟩
  | prependRev =>
      exact ⟨seg :: group,
        ⟨seg.reverse :: oriented, List.Forall₂.cons (Or.inr rfl) hf,
          by simp [applySplice]⟩, List.Perm.refl _⟩

/-- Popping an element at a valid index is a permutation-preserving split. -/
theorem cons_eraseIdx_perm {l : List (List (ℤ × ℤ))} {i : ℕ}
    (h : i < l.length) : (l.getD i [] :: l.eraseIdx i).Perm l := by
  rw [List.eraseIdx_eq_take_drop_succ, List.getD_eq_getElem l [] h]
  refine (List.perm_middle).symm.trans ?_
  rw [List.getElem_cons_drop, List.take_append_drop]

/-- The inner loop never grows the fragment pool. -/
theorem stitchLoop_snd_length {w h : ℕ} :
    ∀ (fuel : ℕ) (path : List (ℤ × ℤ)) (segs : List (List (ℤ × ℤ))),
      ((stitchLoop w h fuel path segs).2).length ≤ segs.length
  | 0, path, segs => le_refl _
  | fuel + 1, path, segs => by
      unfold stitchLoop
      rcases hfb : findBest w h (path.headD (0, 0)) (path.getLastD (0, 0)) segs
        with - | ⟨d, i, a⟩
      · simp
      · have hi : i < segs.length := findBest_idx_lt hfb
        have hrec := stitchLoop_snd_length (w := w) (h := h) fuel
          (applySplice path (segs.getD i []) a) (segs.eraseIdx i)
        have hlen : (segs.eraseIdx i).length = segs.length - 1 := by
          rw [List.length_eraseIdx]
          simp [hi]
        simp only []
        omega

/-- The inner `while changed` loop preserves the fragment multiset: the
finished path is a splice of the seed group extended by the consumed
fragments, and consumed plus remaining fragments are a permutation of the
pool. -/
theorem stitchLoop_spec {w h : ℕ} :
    ∀ (fuel : ℕ) (path : List (ℤ × ℤ)) (segs group : List (List (ℤ × ℤ))),
      segs.length ≤ fuel → IsSpliceOf group path →
      ∃ group', IsSpliceOf group' (stitchLoop w h fuel path segs).1 ∧
        (group' ++ (stitchLoop w h fuel path segs).2).Perm (group ++ segs)
  | 0, path, segs, group, hlen, hg => by
      have hnil : segs = [] := List.length_eq_zero.mp (Nat.le_zero.mp hlen)
      subst hnil
      exact ⟨group, hg, by simp [stitchLoop]⟩
  | fuel + 1, path, segs, group, hlen, hg => by
      unfold stitchLoop
      rcases hfb : findBest w h (path.headD (0, 0)) (path.getLastD (0, 0)) segs
        with - | ⟨d, i, a⟩
      · exact ⟨group, hg, List.Perm.refl _⟩
      · have hi : i < segs.length := findBest_idx_lt hfb
        obtain ⟨g₂, hg₂, hperm₂⟩ := isSpliceOf_apply hg (segs.getD i []) a
        have hlen' : (segs.eraseIdx i).length ≤ fuel := by
          rw [List.length_eraseIdx]
          simp [hi]
          omega
        obtain ⟨group', hsp, hperm⟩ := stitchLoop_spec fuel
          (applySplice path (segs.getD i []) a) (segs.eraseIdx i) g₂ hlen' hg₂
        refine ⟨group', hsp, hperm.trans ?_⟩
        refine (hperm₂.append_right _).trans ?_
        have h1 : (segs.getD i [] :: group ++ segs.eraseIdx i).Perm
            (group ++ segs.getD i [] :: segs.eraseIdx i) := by
          simpa using (@List.perm_middle _ (segs.getD i []) group
            (segs.eraseIdx i)).symm
        exact h1.trans (List.Perm.append_left group (cons_eraseIdx_perm hi))

/-- The outer loop partitions the pool into groups, one per produced path. -/
theorem mergeLoop_spec {w h : ℕ} :
    ∀ (fuel : ℕ) (segs : List (List (ℤ × ℤ))), segs.length ≤ fuel →
      ∃ parts : List (List (List (ℤ × ℤ))),
        List.Forall₂ IsSpliceOf parts (mergeLoop w h fuel segs) ∧
        parts.flatten.Perm segs
  | 0, segs, hlen => by
      have hnil : segs = [] := List.length_eq_zero.mp (Nat.le_zero.mp hlen)
      subst hnil
      exact ⟨[], List.Forall₂.nil, by simp⟩
  | fuel + 1, [], _ => ⟨[], List.Forall₂.nil, by simp⟩
  | fuel + 1, first :: rest, hlen => by
      obtain ⟨group', hsp, hperm⟩ := stitchLoop_spec (w := w) (h := h)
        rest.length first rest [first] (le_refl _) (isSpliceOf_seed first)
      have hrl : ((stitchLoop w h rest.length first rest).2).length ≤ fuel := by
        have h1 := stitchLoop_snd_length (w := w) (h := h) rest.length first rest
        simp only [List.length_cons] at hlen
        omega
      obtain ⟨parts', hf', hperm'⟩ := mergeLoop_spec fuel _ hrl
      refine ⟨group' :: parts', ?_, ?_⟩
      · unfold mergeLoop
        exact List.Forall₂.cons hsp hf'
      · simp only [List.flatten_cons]
        exact (List.Perm.append_left group' hperm').trans hperm

/-- Claim C10: stitching conserves the fragments.  The returned contours are
the greedily merged paths filtered to those with more than one point, and the
merged paths split the input fragment multiset: each produced path is the
concatenation of a group of input fragments, each fragment used exactly once
across all paths and appearing as one contiguous block in original or exactly
reversed point order — so no point is created, dropped or modified before the
final length filter. -/
theorem mergeContours_conservation (w h : ℕ)
    (contours : List (List (ℤ × ℤ))) :
    ∃ (paths : List (List (ℤ × ℤ))) (parts : List (List (List (ℤ × ℤ)))),
      mergeContours w h contours = paths.filter (fun p => 1 < p.length) ∧
      List.Forall₂ IsSpliceOf parts paths ∧
      parts.flatten.Perm contours := by
  obtain ⟨parts, hf, hperm⟩ := mergeLoop_spec (w := w) (h := h)
    (contours.mergeSort fun a b => decide (b.length ≤ a.length)).length
    (contours.mergeSort fun a b => decide (b.length ≤ a.length)) (le_refl _)
  exact ⟨_, parts, rfl, hf, hperm.trans (List.mergeSort_perm contours _)⟩

/-- Witness for `stitch_threshold_spec`: in the 5px scenario the selected
candidate (distance² 25, index 0, append) is below the 90px threshold and
minimal. -/
theorem stitch_threshold_spec_witness :
    belowThreshold 25 400 600 ∧
      (25 : ℤ) ≤ minEndDist2 (0, 0) (10, 0) [(15, 0), (30, 0)] := by
  have h := stitch_threshold_spec.2.1 400 600 (0, 0) (10, 0)
    [[(15, 0), (30, 0)]] 25 0 SpliceAction.append (by decide)
  exact ⟨h.1, h.2 [(15, 0), (30, 0)] (by simp)⟩

/-! ### Properties of the morphological operators (toward claims C2 and C8) -/

/-- Membership in the pixel grid. -/
theorem mem_grid {w h : ℕ} {p : ℤ × ℤ} :
    p ∈ grid w h ↔ 0 ≤ p.1 ∧ p.1 < w ∧ 0 ≤ p.2 ∧ p.2 < h := by
  simp [grid, Finset.mem_product, Finset.mem_Ico, and_assoc]

/-- Membership in an eroded raster. -/
theorem mem_erode {w h : ℕ} {s : Finset (ℤ × ℤ)} {p : ℤ × ℤ} :
    p ∈ erode w h s ↔ p ∈ grid w h ∧
      ∀ b ∈ crossOffsets, (p.1 + b.1, p.2 + b.2) ∈ grid w h →
        (p.1 + b.1, p.2 + b.2) ∈ s := by
  simp [erode, Finset.mem_filter]

/-- Membership in a dilated raster. -/
theorem mem_dilate {w h : ℕ} {s : Finset (ℤ × ℤ)} {p : ℤ × ℤ} :
    p ∈ dilate w h s ↔ p ∈ grid w h ∧
      ∃ b ∈ crossOffsets, (p.1 + b.1, p.2 + b.2) ∈ s := by
  simp [dilate, Finset.mem_filter]

/-- Erosion is anti-extensive. -/
theorem erode_subset {w h : ℕ} {s : Finset (ℤ × ℤ)} : erode w h s ⊆ s := by
  intro p hp
  obtain ⟨hg, hall⟩ := mem_erode.mp hp
  have := hall (0, 0) (by simp [crossOffsets]) (by simpa using hg)
  simpa using this

/-- Eroding the empty raster gives the empty raster. -/
theorem erode_empty {w h : ℕ} : erode w h ∅ = ∅ :=
  Finset.eq_empty_of_forall_not_mem fun p hp => by
    simpa using erode_subset hp

/-- Every erosion survivor is kept by the opening. -/
theorem erode_subset_opening {w h : ℕ} {s : Finset (ℤ × ℤ)} :
    erode w h s ⊆ opening w h s := by
  intro p hp
  have hg : p ∈ grid w h := (mem_erode.mp hp).1
  refine mem_dilate.mpr ⟨hg, (0, 0), by simp [crossOffsets], ?_⟩
  simpa using hp

/-- Every in-bounds cross neighbour of an erosion survivor is kept by the
opening. -/
theorem neighbor_mem_opening {w h : ℕ} {s : Finset (ℤ × ℤ)} {p b : ℤ × ℤ}
    (hp : p ∈ erode w h s) (hb : b ∈ crossOffsets)
    (hg : (p.1 + b.1, p.2 + b.2) ∈ grid w h) :
    (p.1 + b.1, p.2 + b.2) ∈ opening w h s := by
  refine mem_dilate.mpr ⟨hg, (-b.1, -b.2), ?_, ?_⟩
  · simp only [crossOffsets, List.mem_cons, List.not_mem_nil, or_false] at hb ⊢
    rcases hb with rfl | rfl | rfl | rfl | rfl <;> simp
  · have : (p.1 + b.1 + -b.1, p.2 + b.2 + -b.2) = p := by
      simp
    rw [this]
    exact hp

/-- The erosion iterates form a decreasing chain. -/
theorem erodeIter_subset (w h : ℕ) (img : Finset (ℤ × ℤ)) :
    ∀ (k i : ℕ), ((erode w h)^[i + k]) img ⊆ ((erode w h)^[i]) img
  | 0, i => by simp
  | k + 1, i => by
      have h1 := erodeIter_subset w h img k (i + 1)
      have h2 : ((erode w h)^[i + 1]) img ⊆ ((erode w h)^[i]) img := by
        rw [Function.iterate_succ_apply']
        exact erode_subset
      calc ((erode w h)^[i + (k + 1)]) img
          = ((erode w h)^[(i + 1) + k]) img := by ring_nf
        _ ⊆ ((erode w h)^[i + 1]) img := h1
        _ ⊆ ((erode w h)^[i]) img := h2

/-- The structural skeleton of the empty raster is empty. -/
theorem skelSet_empty {w h : ℕ} : ∀ fuel : ℕ, skelSet w h fuel ∅ = ∅
  | 0 => rfl
  | fuel + 1 => by
      rw [skelSet, erode_empty, skelSet_empty fuel]
      simp

/-- The loop accumulates exactly the structural skeleton. -/
theorem skelLoop_eq {w h : ℕ} :
    ∀ (fuel : ℕ) (img skel : Finset (ℤ × ℤ)),
      skelLoop w h fuel img skel = skel ∪ skelSet w h fuel img
  | 0, img, skel => by simp [skelLoop, skelSet]
  | fuel + 1, img, skel => by
      rw [skelLoop, skelSet]
      split
      · rename_i hcard
        have : erode w h img = ∅ := Finset.card_eq_zero.mp hcard
        rw [this, skelSet_empty fuel]
        simp
      · rw [skelLoop_eq fuel]
        rw [Finset.union_assoc]

/-- Membership in the structural skeleton: some erosion iterate contains the
pixel but its opening does not. -/
theorem mem_skelSet {w h : ℕ} {p : ℤ × ℤ} :
    ∀ (fuel : ℕ) (img : Finset (ℤ × ℤ)),
      p ∈ skelSet w h fuel img ↔
        ∃ i < fuel, p ∈ ((erode w h)^[i]) img ∧
          p ∉ opening w h (((erode w h)^[i]) img)
  | 0, img => by simp [skelSet]
  | fuel + 1, img => by
      rw [skelSet]
      simp only [Finset.mem_union, Finset.mem_sdiff,
        mem_skelSet fuel (erode w h img)]
      constructor
      · rintro (⟨hp, hno⟩ | ⟨i, hi, hp, hno⟩)
        · exact ⟨0, Nat.succ_pos _, by simpa using hp, by simpa using hno⟩
        · refine ⟨i + 1, by omega, ?_, ?_⟩
          · rwa [Function.iterate_succ_apply]
          · rwa [Function.iterate_succ_apply]
      · rintro ⟨i, hi, hp, hno⟩
        cases i with
        | zero => exact Or.inl ⟨by simpa using hp, by simpa using hno⟩
        | succ j =>
            refine Or.inr ⟨j, by omega, ?_, ?_⟩
            · rwa [Function.iterate_succ_apply] at hp
            · rwa [Function.iterate_succ_apply] at hno

/-- Dilating the empty raster gives the empty raster. -/
theorem dilate_empty {w h : ℕ} : dilate w h ∅ = ∅ :=
  Finset.eq_empty_of_forall_not_mem fun p hp => by
    obtain ⟨-, b, -, hb⟩ := mem_dilate.mp hp
    simp at hb

/-- The skeleton never contains a pixel together with all of its in-bounds
cross neighbours: eroding a skeleton yields the empty raster.  (A pixel of
the skeleton appears at exactly one erosion depth; a neighbour at a strictly
smaller depth would be covered by the opening at that depth, and if all
in-bounds neighbours sit at depth at least `i`, the pixel itself survives the
`i`-th erosion and is covered by the `i`-th opening.) -/
theorem erode_skeletonize_empty (w h : ℕ) (img : Finset (ℤ × ℤ)) :
    erode w h (skeletonize w h img) = ∅ := by
  refine Finset.eq_empty_of_forall_not_mem fun p hp => ?_
  have hY : skeletonize w h img = skelSet w h (w * h + 1) img := by
    unfold skeletonize
    rw [skelLoop_eq]
    simp
  rw [hY] at hp
  obtain ⟨hg, hall⟩ := mem_erode.mp hp
  have hpY : p ∈ skelSet w h (w * h + 1) img := by
    have := hall (0, 0) (by simp [crossOffsets]) (by simpa using hg)
    simpa using this
  obtain ⟨i, hi, hpXi, hpNo⟩ := (mem_skelSet _ _).mp hpY
  have hnb : ∀ b ∈ crossOffsets, (p.1 + b.1, p.2 + b.2) ∈ grid w h →
      (p.1 + b.1, p.2 + b.2) ∈ ((erode w h)^[i]) img := by
    intro b hb hbg
    obtain ⟨j, hj, hqXj, hqNo⟩ := (mem_skelSet _ _).mp (hall b hb hbg)
    by_cases hij : i ≤ j
    · have hsub : ((erode w h)^[j]) img ⊆ ((erode w h)^[i]) img := by
        have := erodeIter_subset w h img (j - i) i
        rwa [Nat.add_sub_cancel' hij] at this
      exact hsub hqXj
    · exfalso
      push_neg at hij
      have hpX : p ∈ ((erode w h)^[j + 1]) img := by
        have hsub : ((erode w h)^[i]) img ⊆ ((erode w h)^[j + 1]) img := by
          have := erodeIter_subset w h img (i - (j + 1)) (j + 1)
          rwa [Nat.add_sub_cancel' (by omega)] at this
        exact hsub hpXi
      rw [Function.iterate_succ_apply'] at hpX
      exact hqNo (neighbor_mem_opening hpX hb hbg)
  exact hpNo (erode_subset_opening (mem_erode.mpr ⟨hg, hnb⟩))

/-- A raster whose erosion is empty is its own skeleton. -/
theorem skeletonize_of_erode_empty {w h : ℕ} {s : Finset (ℤ × ℤ)}
    (hE : erode w h s = ∅) : skeletonize w h s = s := by
  unfold skeletonize
  rw [skelLoop_eq]
  have hstep : skelSet w h (w * h + 1) s =
      (s \ opening w h s) ∪ skelSet w h (w * h) (erode w h s) := rfl
  have hop : opening w h s = ∅ := by
    unfold opening
    rw [hE]
    exact dilate_empty
  rw [hstep, hE, skelSet_empty, hop]
  simp

/-- Claim C8: skeletonization is idempotent.  Stated for every raster on
which the source loop terminates (every raster that is not the full grid, cf.
claim C2); the proof goes through `erode_skeletonize_empty`: the skeleton of
any raster has empty erosion, and such a raster is its own skeleton. -/
theorem skeletonize_idempotent (w h : ℕ) (img : Finset (ℤ × ℤ))
    (hsub : img ⊆ grid w h) (hne : img ≠ grid w h) :
    skeletonize w h (skeletonize w h img) = skeletonize w h img :=
  skeletonize_of_erode_empty (erode_skeletonize_empty w h img)

/-- Witness for `skeletonize_idempotent` on a small two-pixel raster. -/
theorem skeletonize_idempotent_witness :
    skeletonize 3 3 (skeletonize 3 3 {((0 : ℤ), (0 : ℤ)), ((1 : ℤ), (0 : ℤ))}) =
      skeletonize 3 3 {((0 : ℤ), (0 : ℤ)), ((1 : ℤ), (0 : ℤ))} :=
  skeletonize_idempotent 3 3 {(0, 0), (1, 0)} (by decide) (by decide)

/-- A raster contained in the grid that has a set pixel and misses a grid
pixel has a set pixel with an unset in-bounds cross neighbour: walk from the
set pixel towards the unset one along an axis-aligned path. -/
theorem exists_boundary {w h : ℕ} {img : Finset (ℤ × ℤ)}
    (hsub : img ⊆ grid w h) :
    ∀ (d : ℕ) (p q : ℤ × ℤ), p ∈ img → q ∈ grid w h → q ∉ img →
      (p.1 - q.1).natAbs + (p.2 - q.2).natAbs ≤ d →
      ∃ r ∈ img, ∃ b ∈ crossOffsets,
        (r.1 + b.1, r.2 + b.2) ∈ grid w h ∧ (r.1 + b.1, r.2 + b.2) ∉ img := by
  intro d
  induction d with
  | zero =>
      intro p q hp hq hqn hd
      have hpq : p = q := by
        have h1 : p.1 = q.1 := by omega
        have h2 : p.2 = q.2 := by omega
        exact Prod.ext h1 h2
      rw [hpq] at hp
      exact absurd hp hqn
  | succ d IH =>
      intro p q hp hq hqn hd
      rcases eq_or_ne p q with rfl | hne
      · exact absurd hp hqn
      · have hpg := mem_grid.mp (hsub hp)
        have hqg := mem_grid.mp hq
        obtain ⟨b, hbmem, hbg, hdec⟩ :
            ∃ b ∈ crossOffsets, (p.1 + b.1, p.2 + b.2) ∈ grid w h ∧
              (p.1 + b.1 - q.1).natAbs + (p.2 + b.2 - q.2).natAbs ≤ d := by
          rcases lt_trichotomy p.1 q.1 with h1 | h1 | h1
          · exact ⟨(1, 0), by simp [crossOffsets],
              by simp only [mem_grid]; constructor <;> omega, by omega⟩
          · rcases lt_trichotomy p.2 q.2 with h2 | h2 | h2
            · exact ⟨(0, 1), by simp [crossOffsets],
                by simp only [mem_grid]; constructor <;> omega, by omega⟩
            · exact absurd (Prod.ext h1 h2) hne
            · exact ⟨(0, -1), by simp [crossOffsets],
                by simp only [mem_grid]; constructor <;> omega, by omega⟩
          · exact ⟨(-1, 0), by simp [crossOffsets],
              by simp only [mem_grid]; constructor <;> omega, by omega⟩
        by_cases hin : (p.1 + b.1, p.2 + b.2) ∈ img
        · exact IH (p.1 + b.1, p.2 + b.2) q hin hq hqn hdec
        · exact ⟨p, hp, b, hbmem, hbg, hin⟩

/-- Erosion strictly shrinks every nonempty raster that misses a grid
pixel. -/
theorem erode_ssubset {w h : ℕ} {img : Finset (ℤ × ℤ)}
    (hsub : img ⊆ grid w h) (hne_emp : img.Nonempty)
    (hne : img ≠ grid w h) : erode w h img ⊂ img := by
  obtain ⟨p, hp⟩ := hne_emp
  have hq : ∃ q ∈ grid w h, q ∉ img := by
    by_contra hc
    push_neg at hc
    exact hne (Finset.Subset.antisymm hsub hc)
  obtain ⟨q, hqg, hqn⟩ := hq
  obtain ⟨r, hr, b, hb, hbg, hbn⟩ := exists_boundary hsub
    ((p.1 - q.1).natAbs + (p.2 - q.2).natAbs) p q hp hqg hqn (le_refl _)
  refine Finset.ssubset_iff_subset_ne.mpr ⟨erode_subset, fun heq => ?_⟩
  rw [← heq] at hr
  exact hbn ((mem_erode.mp hr).2 b hb hbg)

/-- The erosion iterates of a raster that misses a grid pixel reach the
empty raster within `card` steps. -/
theorem erode_iterate_empty {w h : ℕ} :
    ∀ (n : ℕ) (img : Finset (ℤ × ℤ)), img ⊆ grid w h → img ≠ grid w h →
      img.card ≤ n → ((erode w h)^[n]) img = ∅
  | 0, img, hsub, hne, hcard => by
      have : img = ∅ := Finset.card_eq_zero.mp (Nat.le_zero.mp hcard)
      simpa using this
  | n + 1, img, hsub, hne, hcard => by
      rcases Finset.eq_empty_or_nonempty img with rfl | hne_emp
      · exact Function.iterate_fixed erode_empty (n + 1)
      · have hss := erode_ssubset hsub hne_emp hne
        have hcard' : (erode w h img).card ≤ n := by
          have := Finset.card_lt_card hss
          omega
        have hsub' : erode w h img ⊆ grid w h := subset_trans erode_subset hsub
        have hne' : erode w h img ≠ grid w h := fun heq =>
          hne (Finset.Subset.antisymm hsub (by rw [← heq]; exact erode_subset))
        rw [Function.iterate_succ_apply]
        exact erode_iterate_empty n (erode w h img) hsub' hne' hcard'

/-- Claim C2, amended: the skeletonization loop terminates for every raster
that misses at least one grid pixel — erosion strictly shrinks such rasters
while they are nonempty, so the erosion iterates reach exact emptiness (the
loop's stopping condition, `cv2.countNonZero(img) == 0`, not an
iteration-count bound) within `card img` steps, the maximal erosion depth.
On the all-white raster the erosion is a fixed point and the loop never
exits, so the claim's universal form fails there (see
`skeletonize_full_grid_diverges`). -/
theorem skeletonize_terminates (w h : ℕ) (img : Finset (ℤ × ℤ))
    (hsub : img ⊆ grid w h) (hne : img ≠ grid w h) :
    (((erode w h)^[img.card]) img).card = 0 ∧
      ∃ n ≤ img.card, (((erode w h)^[n]) img).card = 0 := by
  have hemp := erode_iterate_empty img.card img hsub hne (le_refl _)
  exact ⟨by simp [hemp], img.card, le_refl _, by simp [hemp]⟩

/-- Witness for `skeletonize_terminates` on a one-pixel raster in a 2×2
grid. -/
theorem skeletonize_terminates_witness :
    (((erode 2 2)^[({((0 : ℤ), (0 : ℤ))} : Finset (ℤ × ℤ)).card])
        ({((0 : ℤ), (0 : ℤ))} : Finset (ℤ × ℤ))).card = 0 ∧
      ∃ n ≤ ({((0 : ℤ), (0 : ℤ))} : Finset (ℤ × ℤ)).card,
        (((erode 2 2)^[n]) ({((0 : ℤ), (0 : ℤ))} : Finset (ℤ × ℤ))).card = 0 :=
  skeletonize_terminates 2 2 {(0, 0)} (by decide) (by decide)

/-- Claim C2 as stated is false at the all-white raster: the full 2×2 grid
(four nonzero pixels) is a fixed point of the cross erosion (OpenCV's default
border handling ignores out-of-bounds neighbours), so no erosion iterate is
ever empty and the `while True` loop of `_skeletonize` never reaches its exit
condition. -/
theorem skeletonize_full_grid_diverges :
    (grid 2 2).card ≠ 0 ∧
      ¬ ∃ n, (((erode 2 2)^[n]) (grid 2 2)).card = 0 := by
  have hfix : erode 2 2 (grid 2 2) = grid 2 2 := by decide
  refine ⟨by decide, ?_⟩
  rintro ⟨n, hn⟩
  rw [Function.iterate_fixed hfix] at hn
  exact absurd hn (by decide)

/-- Claim C4: the fragment filter retains at most three fragments; every
retained fragment has arc length strictly above 8% of `max(width, height)`
(so nothing at or below the threshold is retained); and every retained
fragment is among the three longest input contours — at most two input
contours are strictly longer than it. -/
theorem selectFragments_spec (width height : ℕ)
    (contours : List (List (ℤ × ℤ))) :
    (selectFragments width height contours).length ≤ 3 ∧
      (∀ c ∈ selectFragments width height contours,
        (max width height : ℝ) * 0.08 < arcLength c) ∧
      ∀ c ∈ selectFragments width height contours,
        (contours.filter fun x => decide (arcLength c < arcLength x)).length ≤ 2 := by
  have hpair : List.Pairwise
      (fun a b => (fun a b => decide (arcLength b ≤ arcLength a)) a b = true)
      (contours.mergeSort fun a b => decide (arcLength b ≤ arcLength a)) :=
    List.sorted_mergeSort
      (fun a b c hab hbc => by
        simp only [decide_eq_true_eq] at hab hbc ⊢
        exact le_trans hbc hab)
      (fun a b => by
        simp only [Bool.or_eq_true, decide_eq_true_eq]
        exact le_total (arcLength b) (arcLength a))
      contours
  refine ⟨?_, ?_, ?_⟩
  · refine le_trans (List.length_filter_le _ _) ?_
    rw [List.length_take]
    omega
  · intro c hc
    have := (List.mem_filter.mp hc).2
    simpa using this
  · intro c hc
    obtain ⟨hctake, -⟩ := List.mem_filter.mp hc
    obtain ⟨i, hilen, hget⟩ := List.mem_iff_getElem.mp hctake
    rw [List.getElem_take] at hget
    have hi3 : i < 3 := by
      have := hilen
      rw [List.length_take] at this
      omega
    have hislen : i < (contours.mergeSort
        fun a b => decide (arcLength b ≤ arcLength a)).length := by
      rw [List.length_take] at hilen
      omega
    have hcount : (contours.filter fun x => decide (arcLength c < arcLength x)).length
        = ((contours.mergeSort fun a b => decide (arcLength b ≤ arcLength a)).filter
            fun x => decide (arcLength c < arcLength x)).length :=
      (List.Perm.filter _
        (List.mergeSort_perm contours
          fun a b => decide (arcLength b ≤ arcLength a))).length_eq.symm
    rw [hcount]
    have hdropPair := List.Pairwise.drop (n := i) hpair
    rw [← List.getElem_cons_drop _ i hislen, hget] at hdropPair
    obtain ⟨hcforall, -⟩ := List.pairwise_cons.mp hdropPair
    have hsplit : (contours.mergeSort fun a b => decide (arcLength b ≤ arcLength a))
        = (contours.mergeSort fun a b => decide (arcLength b ≤ arcLength a)).take i ++
          c :: (contours.mergeSort fun a b => decide (arcLength b ≤ arcLength a)).drop (i + 1) := by
      rw [← hget, List.getElem_cons_drop, List.take_append_drop]
    rw [hsplit, List.filter_append]
    have hnil : List.filter (fun x => decide (arcLength c < arcLength x))
        (c :: (contours.mergeSort
          fun a b => decide (arcLength b ≤ arcLength a)).drop (i + 1)) = [] := by
      rw [List.filter_eq_nil_iff]
      intro a ha
      rcases List.mem_cons.mp ha with rfl | ha
      · simp
      · have hle := hcforall a ha
        simp only [decide_eq_true_eq] at hle ⊢
        exact not_lt.mpr hle
    rw [hnil, List.length_append, List.length_nil]
    have hfl : (List.filter (fun x => decide (arcLength c < arcLength x))
        ((contours.mergeSort
          fun a b => decide (arcLength b ≤ arcLength a)).take i)).length ≤ i := by
      refine le_trans (List.length_filter_le _ _) ?_
      rw [List.length_take]
      omega
    omega

/-- Witness for `selectFragments_spec`: a single horizontal fragment of arc
length 100 in a 100×100 region is retained, exceeds the 8px threshold, and no
input contour is longer. -/
theorem selectFragments_spec_witness :
    (max 100 100 : ℝ) * 0.08 <
        arcLength [((0 : ℤ), (0 : ℤ)), ((100 : ℤ), (0 : ℤ))] ∧
      ([[((0 : ℤ), (0 : ℤ)), ((100 : ℤ), (0 : ℤ))]].filter fun x =>
        decide (arcLength [((0 : ℤ), (0 : ℤ)), ((100 : ℤ), (0 : ℤ))] <
          arcLength x)).length ≤ 2 := by
  have harc : arcLength [((0 : ℤ), (0 : ℤ)), ((100 : ℤ), (0 : ℤ))] = 100 := by
    simp [arcLength]
  have h100 : (max ((100 : ℕ) : ℝ) ((100 : ℕ) : ℝ)) * 0.08 <
      arcLength [((0 : ℤ), (0 : ℤ)), ((100 : ℤ), (0 : ℤ))] := by
    rw [harc]
    norm_num
  have heval : selectFragments 100 100
      [[((0 : ℤ), (0 : ℤ)), ((100 : ℤ), (0 : ℤ))]] =
        [[((0 : ℤ), (0 : ℤ)), ((100 : ℤ), (0 : ℤ))]] := by
    unfold selectFragments
    rw [List.mergeSort_singleton]
    simp only [List.take, List.filter]
    rw [decide_eq_true h100]
  have hmem : [((0 : ℤ), (0 : ℤ)), ((100 : ℤ), (0 : ℤ))] ∈
      selectFragments 100 100 [[((0 : ℤ), (0 : ℤ)), ((100 : ℤ), (0 : ℤ))]] := by
    rw [heval]
    simp
  obtain ⟨-, h2, h3⟩ := selectFragments_spec 100 100
    [[((0 : ℤ), (0 : ℤ)), ((100 : ℤ), (0 : ℤ))]]
  exact ⟨h2 _ hmem, h3 _ hmem⟩
